import Mathlib

set_option maxRecDepth 4000

/-
Shallow embedding of the N-Queens repository (`queens.py`, `solver.py`,
`ga_utils.py`).

A Python `Queen` carries only its `row`, with equality by row, so a queen is
embedded as its row number (`Nat`).  A board slot (`self.queens[i]`) holds
either a queen or `None`, so a slot is `Option Nat` (`none` is the `NON_QUEEN`
marker `"-"`).  A `Board` is the column-indexed list of its slots; the Python
attribute `n` is the list length.  Python's `enumerate(self.queens)` pairs each
column index with its slot, which we render as iteration over
`List.range b.length` together with `slot b i`.

Fallible Python code (`raise ValueError`) is embedded with `Except String` /
`Option` results.  Calls to the global random source are embedded as explicit
oracle parameters (`Nat → Nat` index choices, `Nat → Bool` acceptance draws).
-/

abbrev Board := List (Option Nat)

/-- `self.queens[i]`: the slot of column `i` (`none` past the end; every use
below stays in bounds). -/
def slot (b : Board) (i : Nat) : Option Nat := b.getD i none

/-- `Board.compare_queens` (queens.py:84-106): number of attacks between the
queens of columns `i` and `j`.  Self-pairs and pairs with a missing queen are
guarded to 0; otherwise one hit for a shared row plus, independently, one hit
for a shared diagonal (`abs(first_ind - second_ind) == abs(first_queen -
second_queen)`, queen subtraction being row subtraction). -/
def compare_queens (i : Nat) (q1 : Option Nat) (j : Nat) (q2 : Option Nat) : Nat :=
  match q1, q2 with
  | some r1, some r2 =>
    if i = j then 0
    else
      (if r1 = r2 then 1 else 0) +
      (if ((i : Int) - (j : Int)).natAbs = ((r1 : Int) - (r2 : Int)).natAbs then 1 else 0)
  | _, _ => 0

/-- `Board.num_attacking` (queens.py:108-123): sum `compare_queens` over every
ordered pair of columns (the nested `enumerate` loops), then integer-divide
the total by 2. -/
def num_attacking (b : Board) : Nat :=
  (((List.range b.length).map (fun i =>
    ((List.range b.length).map (fun j =>
      compare_queens i (slot b i) j (slot b j))).sum)).sum) / 2

/-- One character of an identifier, as consumed by `Board.from_str`
(queens.py:41-63): `-` adds an empty slot; a non-digit raises
`ID must be composed of digits or -`; a digit row `>= n` makes `add_queen`
raise `Exceeded Board Limit` (queens.py:65-75). -/
def char_to_slot (n : Nat) (c : Char) : Except String (Option Nat) :=
  if c = '-' then Except.ok none
  else if c.isDigit then
    let r := c.toNat - '0'.toNat
    if n ≤ r then Except.error "Exceeded Board Limit" else Except.ok (some r)
  else Except.error "ID must be composed of digits or -"

/-- `Board.from_str` (queens.py:41-63): build a board of size
`len(identifier)` by adding one slot per character.  The `available` cursor
can never overflow here because exactly `n` characters are consumed. -/
def from_str (s : String) : Except String Board :=
  s.data.mapM (char_to_slot s.data.length)

/-- `repr(queen)` / the `NON_QUEEN` marker: the characters one slot
contributes to the board identifier (`str(self.row)` may be several characters
when the row has more than one digit). -/
def slot_repr : Option Nat → List Char
  | none => ['-']
  | some r => (Nat.repr r).data

/-- `Board.__repr__` (queens.py:195-200): the string identifier, one slot
rendering per column, concatenated. -/
def repr_board (b : Board) : String := String.mk (b.flatMap slot_repr)

/-- `Queen.possible_moves` (queens.py:23-24): every other row of `range(n)`. -/
def queen_possible_moves (n row : Nat) : List Nat :=
  (List.range n).filter (fun i => i ≠ row)

/-- `Board.from_str(repr(self))` as used by `possible_moves_part`
(queens.py:174): clone a board through its identifier.  Parsing a board's own
identifier never fails for boards whose rows respect the Python invariant
`row < n`; the error fallback is unreachable there. -/
def clone_board (b : Board) : Board :=
  match from_str (repr_board b) with
  | Except.ok c => c
  | Except.error _ => b

/-- `Board.possible_moves_part` (queens.py:168-178): for every alternate row
of the queen of column `index`, clone the board through its identifier and
overwrite that column. -/
def possible_moves_part (b : Board) (index : Nat) (row : Nat) : List Board :=
  (queen_possible_moves b.length row).map (fun r => (clone_board b).set index (some r))

/-- `Board.possible_moves` (queens.py:155-166): concatenate
`possible_moves_part` over every occupied column, skipping empty ones. -/
def possible_moves (b : Board) : List Board :=
  ((List.range b.length).map (fun i =>
    match slot b i with
    | none => []
    | some r => possible_moves_part b i r)).flatten

/-- Python's `min(iterable, key=f)` on boards: first element of minimal key,
`none` on an empty iterable (where Python raises `ValueError`). -/
def min_by (f : Board → Nat) : List Board → Option Board
  | [] => none
  | x :: xs => some (xs.foldl (fun acc y => if f y < f acc then y else acc) x)

/-- `Solver.hill_climb` (solver.py:46-62): repeatedly replace the current
board by the minimum-conflict member of its full move neighborhood; stop and
return (with the number of strict improvements as cost) as soon as that
neighbor is not strictly better.  `none` models the `ValueError` Python's
`min` raises on an empty neighborhood.  Termination: each recursive call
strictly decreases `num_attacking`. -/
def hill_climb (b : Board) : Option (Board × Nat) :=
  match min_by num_attacking (possible_moves b) with
  | none => none
  | some nb =>
    if h : num_attacking nb < num_attacking b then
      match hill_climb nb with
      | none => none
      | some (fin, c) => some (fin, c + 1)
    else some (b, 0)
termination_by num_attacking b
decreasing_by exact h

/-- The set insertion of `conflicting.add(...)` (queens.py:142-145), on the
insertion-ordered list rendering of the Python set of `(column, row)` pairs. -/
def cq_insert (acc : List (Nat × Nat)) (p : Nat × Nat) : List (Nat × Nat) :=
  if p ∈ acc then acc else acc ++ [p]

/-- One inner-loop step of `Board.conflicting_queens` (queens.py:125-147):
skip the pair if both ends are already recorded, otherwise record both ends
when `compare_queens` reports an attack.  Pairs with a missing queen are never
recorded (the `(index, None)` tuples can never be members, and
`compare_queens` returns 0 for them). -/
def cq_step (b : Board) (acc : List (Nat × Nat)) (i j : Nat) : List (Nat × Nat) :=
  match slot b i, slot b j with
  | some r1, some r2 =>
    if (i, r1) ∈ acc ∧ (j, r2) ∈ acc then acc
    else if compare_queens i (some r1) j (some r2) ≠ 0 then
      cq_insert (cq_insert acc (i, r1)) (j, r2)
    else acc
  | _, _ => acc

/-- `Board.conflicting_queens` (queens.py:125-147): scan every ordered column
pair, collecting the `(column, row)` pairs that participate in an attack. -/
def conflicting_queens (b : Board) : List (Nat × Nat) :=
  (List.range b.length).foldl (fun acc i =>
    (List.range b.length).foldl (fun acc2 j => cq_step b acc2 i j) acc) []

/-- `Solver.min_conflicts` loop body (solver.py:102-128), with the iteration
budget and accumulated cost explicit.  `rand` is the random oracle: at step
`cost` the pick from `list(current.conflicting_queens)` is index
`rand cost % length`.  `none` models the `IndexError`/`ValueError` Python's
`random.choice` / `min` would raise on an empty collection. -/
def min_conflicts_aux (rand : Nat → Nat) : Nat → Nat → Board → Option (Board × Nat)
  | 0, cost, cur => some (cur, cost)
  | fuel + 1, cost, cur =>
    if num_attacking cur = 0 then some (cur, cost)
    else
      match (conflicting_queens cur).get? (rand cost % (conflicting_queens cur).length) with
      | none => none
      | some (ci, cr) =>
        match min_by num_attacking (possible_moves_part cur ci cr) with
        | none => none
        | some best => min_conflicts_aux rand fuel (cost + 1) best

/-- `Solver.min_conflicts` (solver.py:102-128). -/
def min_conflicts (rand : Nat → Nat) (b : Board) (max_steps : Nat) : Option (Board × Nat) :=
  min_conflicts_aux rand max_steps 0 b

/-- The `1e-300` temperature floor of `Solver.simulated_annealing`
(solver.py:76), as an exact rational. -/
def sa_floor : ℚ := 1 / 10 ^ 300

/-- `Solver.simulated_annealing` loop (solver.py:64-94).  `pick` chooses the
random neighbor index at each step; `accept` is the Metropolis draw
`random.random() < exp(delta_e / temperature)` (a float comparison on a fresh
uniform sample, abstracted as an oracle Boolean).  `fuel` bounds the number of
iterations; `none` is returned only if it runs out with the temperature still
above the floor, or if the neighborhood is empty (`random.choice` raises). -/
def sa_loop (pick : Nat → Nat) (accept : Nat → Bool) (fuel : Nat) (cur : Board)
    (temp cooling : ℚ) (cost : Nat) : Option (Board × Nat) :=
  if temp < sa_floor then some (cur, cost)
    else
      match fuel with
      | 0 => none
      | f + 1 =>
        match (possible_moves cur).get? (pick cost % (possible_moves cur).length) with
        | none => none
        | some nb =>
          if num_attacking nb = 0 then some (nb, cost)
          else
            sa_loop pick accept f
              (if 0 < (num_attacking cur : Int) - (num_attacking nb : Int) ∨ accept cost = true
               then nb else cur)
              (temp * cooling) cooling (cost + 1)

/-- Python `int(...)` on a rational value: truncation toward zero. -/
def py_int (q : ℚ) : Int := Int.tdiv q.num q.den

/-- `SelectionMethods.tournament_selection` (ga_utils.py:41-81): tournament
size is `int(len(population) * proportion)`; outside `(1, len(population))`
the `ValueError` (the spec's `InvalidTournamentProportion`) is raised before
any random draw.  `rand` indexes the `random.choice(population)` draws: the
running champion is draw 0, the `size` opponents are draws `1..size`. -/
def tournament_selection (rand : Nat → Nat) (population : List Board) (proportion : ℚ) :
    Except String Board :=
  let size := py_int ((population.length : ℚ) * proportion)
  if ¬(1 < size ∧ size < (population.length : Int)) then
    Except.error "InvalidTournamentProportion"
  else
    Except.ok ((List.range size.toNat).foldl
      (fun parent k =>
        let opponent := population.getD (rand (k + 1) % population.length) []
        if num_attacking opponent < num_attacking parent then opponent else parent)
      (population.getD (rand 0 % population.length) []))

/-- Whether an `Except` result is a raised error. -/
def is_error (e : Except String Board) : Bool :=
  match e with
  | Except.error _ => true
  | Except.ok _ => false

/-- `GeneticAlgorithm.NUM_GENERATIONS` (ga_utils.py:98). -/
def NUM_GENERATIONS : Nat := 10

/-- `GeneticAlgorithm.get_best_individual` (ga_utils.py:237-240):
`min(population, key=num_attacking)`, `none` on an empty population. -/
def get_best_individual (pop : List Board) : Option Board := min_by num_attacking pop

/-- The generation loop of `GeneticAlgorithm.gen_loop` (ga_utils.py:146-210).
`fill` abstracts the randomized population refill (tournament selection,
crossover, mutation, ga_utils.py:183-205): given the generation index, the
current population and the elitism seed `[best]`, it returns the filled next
population.  The first argument counts the remaining generations
(`NUM_GENERATIONS - i` for loop index `i`); when it reaches 0 the loop falls
through and returns cost `NUM_GENERATIONS`.  The early-exit cost `i - 1` is a
Python `int`, hence `Int` here (it is `-1` when the elite of generation 0 is
already a solution). -/
def gen_loop_aux (fill : Nat → List Board → List Board → List Board) :
    Nat → Nat → List Board → Option (List Board × Int)
  | 0, _, pop => some (pop, (NUM_GENERATIONS : Int))
  | r + 1, i, pop =>
    match get_best_individual pop with
    | none => none
    | some best =>
      if num_attacking best = 0 then some ([best], (i : Int) - 1)
      else gen_loop_aux fill r (i + 1) (fill i pop [best])

/-- `GeneticAlgorithm.gen_loop` (ga_utils.py:137-210), from an already
initialized population. -/
def gen_loop (fill : Nat → List Board → List Board → List Board)
    (init_pop : List Board) : Option (List Board × Int) :=
  gen_loop_aux fill NUM_GENERATIONS 0 init_pop

/-- The claimed formula for `num_attacking` of a fully constructed board,
written from the spec's words rather than the code: for every ordered pair of
columns (self-pairs contributing 0 through an explicit guard) one same-row
hit plus, independently, one same-diagonal hit, then integer-divide the grand
total by 2.  A fully constructed board is a list of rows. -/
def num_attacking_spec (rows : List Nat) : Nat :=
  (((List.range rows.length).map (fun i =>
    ((List.range rows.length).map (fun j =>
      if i = j then 0
      else
        (if rows.getD i 0 = rows.getD j 0 then 1 else 0) +
        (if ((i : Int) - (j : Int)).natAbs =
            ((rows.getD i 0 : Int) - (rows.getD j 0 : Int)).natAbs then 1 else 0))).sum)).sum) / 2

/-- The one-character rendering of a slot whose row is a single digit
(proof helper for the identifier round trip). -/
def slot_char : Option Nat → Char
  | none => '-'
  | some r => Char.ofNat (r + 48)

/-- An 11-column board with a queen on row 10: constructible through
`add_queen` (10 < 11), but its identifier renders row 10 as the two
characters "10" (round-trip counterexample input). -/
def wide_board : Board :=
  [some 10, some 0, some 0, some 0, some 0, some 0, some 0, some 0, some 0,
   some 0, some 0]

/-! Helper lemmas -/

theorem slot_replicate (n i : Nat) : slot (List.replicate n (none : Option Nat)) i = none := by
  rw [slot, List.getD_eq_getElem?_getD, List.getElem?_replicate]
  split <;> rfl

/-! ### C2 (board "0123" / "0000" attack counts)

The board parsed from "0123" places every queen on the main diagonal, so all
C(4,2) = 6 pairs attack diagonally: its `num_attacking` is 6, not the claimed
0.  ("1302" would be a non-attacking placement.)  The "0000" half is right. -/

/-- Claim C2 counterexample: `Board.from_str("0123").num_attacking` is 6
(every pair shares a diagonal), not 0 as the claim states. -/
theorem board_0123_not_zero :
    (from_str "0123").map num_attacking = Except.ok 6 ∧
    (from_str "0123").map num_attacking ≠ Except.ok 0 := by
  have h6 : (from_str "0123").map num_attacking = Except.ok 6 := by rfl
  exact ⟨h6, by rw [h6]; simp⟩

/-- Claim C2 (amended): the board parsed from identifier "0123" has
`num_attacking = 6` (all six pairs lie on the main diagonal), and the board
parsed from "0000" has `num_attacking = 6` (all six pairs share a row). -/
theorem board_0123_0000_attacks :
    (from_str "0123").map num_attacking = Except.ok 6 ∧
    (from_str "0000").map num_attacking = Except.ok 6 :=
  ⟨by rfl, by rfl⟩

/-! ### C10 (all-empty board: no moves, hill climbing crashes) -/

/-- Claim C10: a board whose every slot is empty has an empty move
neighborhood, so hill-climbing on it fails (Python's `min` raises on the
empty neighborhood) instead of returning a result. -/
theorem empty_board_hill_climb (n : Nat) :
    possible_moves (List.replicate n (none : Option Nat)) = [] ∧
    hill_climb (List.replicate n (none : Option Nat)) = none := by
  have hpm : possible_moves (List.replicate n (none : Option Nat)) = [] := by
    unfold possible_moves
    rw [List.flatten_eq_nil_iff]
    intro x hx
    rcases List.mem_map.mp hx with ⟨i, _, rfl⟩
    rw [slot_replicate]
  refine ⟨hpm, ?_⟩
  rw [hill_climb, hpm]
  rfl

/-! ### C6 (min-conflicts: immediate return at zero attacks, cost cap) -/

theorem min_conflicts_aux_cost (rand : Nat → Nat) (fuel : Nat) :
    ∀ cost cur p, min_conflicts_aux rand fuel cost cur = some p →
      p.2 = cost + fuel ∨ num_attacking p.1 = 0 := by
  induction fuel with
  | zero =>
    intro cost cur p h
    simp only [min_conflicts_aux, Option.some.injEq] at h
    subst h
    left
    rfl
  | succ f ih =>
    intro cost cur p h
    simp only [min_conflicts_aux] at h
    split at h
    · simp only [Option.some.injEq] at h
      subst h
      right
      assumption
    · split at h
      · exact absurd h (by simp)
      · split at h
        · exact absurd h (by simp)
        · rcases ih (cost + 1) _ p h with hc | hz
          · left; omega
          · right; exact hz

/-- Claim C6: min-conflicts on a board that already has zero attacks returns
immediately with cost 0 and the board unchanged; and whenever it returns
after its step budget without reaching zero attacks, the cost equals
`max_steps`. -/
theorem min_conflicts_spec :
    (∀ rand b max_steps, num_attacking b = 0 →
       min_conflicts rand b max_steps = some (b, 0)) ∧
    (∀ rand b max_steps p, min_conflicts rand b max_steps = some p →
       p.2 = max_steps ∨ num_attacking p.1 = 0) := by
  constructor
  · intro rand b max_steps h
    cases max_steps with
    | zero => rfl
    | succ t => simp [min_conflicts, min_conflicts_aux, h]
  · intro rand b max_steps p h
    have := min_conflicts_aux_cost rand max_steps 0 b p h
    simpa using this

/-- Witness for C6 at concrete inputs: the zero-attack one-queen board is
returned unchanged at cost 0, and a two-queen diagonal board exhausts a
2-step budget with cost exactly 2. -/
theorem min_conflicts_spec_witness :
    min_conflicts (fun _ => 0) [some 0] 5 = some ([some 0], 0) ∧
    (min_conflicts (fun _ => 0) [some 0, some 1] 2 = some ([some 0, some 1], 2) ∧
      ((2 : Nat) = 2 ∨ num_attacking [some 0, some 1] = 0)) :=
  ⟨min_conflicts_spec.1 (fun _ => 0) [some 0] 5 (by rfl),
   by
    have hrun : min_conflicts (fun _ => 0) [some 0, some 1] 2 =
        some ([some 0, some 1], 2) := by rfl
    exact ⟨hrun, min_conflicts_spec.2 (fun _ => 0) [some 0, some 1] 2 _ hrun⟩⟩

/-! ### C3 (genetic algorithm generation cost) -/

theorem gen_loop_aux_cost (fill : Nat → List Board → List Board → List Board)
    (r : Nat) : ∀ i pop p c, gen_loop_aux fill r i pop = some (p, c) →
      c = (NUM_GENERATIONS : Int) ∨
      ∃ i', i ≤ i' ∧ i' < i + r ∧ c = (i' : Int) - 1 ∧
        ∃ best, p = [best] ∧ num_attacking best = 0 := by
  induction r with
  | zero =>
    intro i pop p c h
    simp only [gen_loop_aux, Option.some.injEq, Prod.mk.injEq] at h
    left
    exact h.2.symm
  | succ r ih =>
    intro i pop p c h
    simp only [gen_loop_aux] at h
    split at h
    · exact absurd h (by simp)
    · rename_i best hbest
      split at h
      · rename_i hz
        simp only [Option.some.injEq, Prod.mk.injEq] at h
        right
        exact ⟨i, Nat.le_refl i, by omega, h.2.symm, best, h.1.symm, hz⟩
      · rcases ih (i + 1) _ p c h with hc | ⟨i', hi1, hi2, hc, w⟩
        · left; exact hc
        · right; exact ⟨i', by omega, by omega, hc, w⟩

/-- Claim C3: the generation loop of the genetic algorithm returns cost
`NUM_GENERATIONS` when all generations run; when the elite of generation `i`
is already a full solution it stops immediately, returning the singleton
next-population `[best]` and the off-by-one cost `i - 1` (a Python `int`,
`-1` when `i = 0`).  Every returned cost is of one of these two forms. -/
theorem gen_loop_cost :
    (∀ fill r i pop best, get_best_individual pop = some best →
       num_attacking best = 0 →
       gen_loop_aux fill (r + 1) i pop = some ([best], (i : Int) - 1)) ∧
    (∀ fill i pop, gen_loop_aux fill 0 i pop = some (pop, (NUM_GENERATIONS : Int))) ∧
    (∀ fill init_pop p c, gen_loop fill init_pop = some (p, c) →
       c = (NUM_GENERATIONS : Int) ∨
       ∃ i, i < NUM_GENERATIONS ∧ c = (i : Int) - 1 ∧
         ∃ best, p = [best] ∧ num_attacking best = 0) := by
  refine ⟨?_, ?_, ?_⟩
  · intro fill r i pop best hbest hz
    simp [gen_loop_aux, hbest, hz]
  · intro fill i pop
    rfl
  · intro fill init_pop p c h
    rcases gen_loop_aux_cost fill NUM_GENERATIONS 0 init_pop p c h with hc | ⟨i', _, hi2, hc, w⟩
    · left; exact hc
    · right; exact ⟨i', by omega, hc, w⟩

/-- Witness for C3: with a refill oracle that just keeps the elitism seed and
a single "0000" individual (6 attacks, never a solution), the loop runs all
10 generations and the cost is the full generation count; with a population
whose best (a lone queen) is already a solution, generation 3 stops with the
singleton population and cost 3 - 1. -/
theorem gen_loop_cost_witness :
    (gen_loop (fun _ _ seed => seed) [[some 0, some 0, some 0, some 0]] =
       some ([[some 0, some 0, some 0, some 0]], (NUM_GENERATIONS : Int)) ∧
     ((NUM_GENERATIONS : Int) = (NUM_GENERATIONS : Int) ∨
       ∃ i, i < NUM_GENERATIONS ∧ (NUM_GENERATIONS : Int) = (i : Int) - 1 ∧
         ∃ best, [[some 0, some 0, some 0, some 0]] = [best] ∧ num_attacking best = 0)) ∧
    gen_loop_aux (fun _ _ seed => seed) 5 3 [[some 0]] =
      some ([[some 0]], (3 : Int) - 1) := by
  have hrun : gen_loop (fun _ _ seed => seed) [[some 0, some 0, some 0, some 0]] =
      some ([[some 0, some 0, some 0, some 0]], (NUM_GENERATIONS : Int)) := by rfl
  refine ⟨⟨hrun, gen_loop_cost.2.2 (fun _ _ seed => seed) _ _ _ hrun⟩, ?_⟩
  exact gen_loop_cost.1 (fun _ _ seed => seed) 4 3 [[some 0]] [some 0] (by rfl) (by rfl)

/-! ### C8 (simulated annealing loop structure) -/

/-- Claim C8: each simulated-annealing iteration returns the sampled neighbor
immediately when it is a full solution; otherwise the temperature is
multiplied by the cooling factor under both acceptance outcomes (the same
`temp * cooling` continuation regardless of whether the neighbor replaced the
current board) and the cost increments; the loop runs only while the
temperature is at least the `1e-300` floor, finally returning the current
board — which may still be attacked, as the final conjunct's concrete run
shows. -/
theorem simulated_annealing_loop :
    (∀ pick accept fuel b temp cooling cost, temp < sa_floor →
       sa_loop pick accept fuel b temp cooling cost = some (b, cost)) ∧
    (∀ pick accept f b temp cooling cost nb, sa_floor ≤ temp →
       (possible_moves b).get? (pick cost % (possible_moves b).length) = some nb →
       num_attacking nb = 0 →
       sa_loop pick accept (f + 1) b temp cooling cost = some (nb, cost)) ∧
    (∀ pick accept f b temp cooling cost nb, sa_floor ≤ temp →
       (possible_moves b).get? (pick cost % (possible_moves b).length) = some nb →
       num_attacking nb ≠ 0 →
       sa_loop pick accept (f + 1) b temp cooling cost =
         sa_loop pick accept f
           (if 0 < (num_attacking b : Int) - (num_attacking nb : Int) ∨ accept cost = true
            then nb else b)
           (temp * cooling) cooling (cost + 1)) ∧
    (sa_loop (fun _ => 0) (fun _ => false) 5 [some 0, some 0] 0 1 0 =
       some ([some 0, some 0], 0) ∧
     num_attacking [some 0, some 0] ≠ 0) := by
  have h1 : ∀ pick accept fuel b temp cooling cost, temp < sa_floor →
      sa_loop pick accept fuel b temp cooling cost = some (b, cost) := by
    intro pick accept fuel b temp cooling cost h
    rw [sa_loop.eq_def]
    simp [h]
  refine ⟨h1, ?_, ?_, ?_, ?_⟩
  · intro pick accept f b temp cooling cost nb htemp hpick hz
    rw [sa_loop.eq_def]
    rw [if_neg (not_lt.mpr htemp)]
    rw [hpick]
    simp [hz]
  · intro pick accept f b temp cooling cost nb htemp hpick hz
    rw [sa_loop.eq_def]
    rw [if_neg (not_lt.mpr htemp)]
    rw [hpick]
    simp [hz]
  · exact h1 _ _ 5 _ 0 1 0 (by norm_num [sa_floor])
  · decide

/-- Witness for C8 at concrete inputs: a sub-floor temperature returns the
current board at once; picking the solving move of "1300" returns the
solution "1302" immediately at cost 0; picking a non-solving neighbor of "00"
steps to the cooled continuation. -/
theorem simulated_annealing_loop_witness :
    sa_loop (fun _ => 0) (fun _ => false) 3 [some 0] 0 1 7 = some ([some 0], 7) ∧
    sa_loop (fun _ => 10) (fun _ => false) 4 [some 1, some 3, some 0, some 0] 1 1 0 =
      some ([some 1, some 3, some 0, some 2], 0) ∧
    sa_loop (fun _ => 0) (fun _ => false) 4 [some 0, some 0] 1 1 0 =
      sa_loop (fun _ => 0) (fun _ => false) 3
        (if 0 < (num_attacking [some 0, some 0] : Int) -
              (num_attacking [some 1, some 0] : Int) ∨ (fun _ : Nat => false) 0 = true
         then [some 1, some 0] else [some 0, some 0]) (1 * 1) 1 (0 + 1) :=
  ⟨simulated_annealing_loop.1 _ _ 3 [some 0] 0 1 7 (by norm_num [sa_floor]),
   simulated_annealing_loop.2.1 _ _ 3 [some 1, some 3, some 0, some 0] 1 1 0
     [some 1, some 3, some 0, some 2] (by norm_num [sa_floor]) (by rfl) (by rfl),
   simulated_annealing_loop.2.2.1 _ _ 3 [some 0, some 0] 1 1 0 [some 1, some 0]
     (by norm_num [sa_floor]) (by rfl) (by decide)⟩

/-! ### C1 (num_attacking refines the spec formula) -/

theorem slot_map_some (rows : List Nat) (i : Nat) (h : i < rows.length) :
    slot (rows.map some) i = some (rows.getD i 0) := by
  rw [slot, List.getD_eq_getElem (rows.map some) none (by simpa using h),
    List.getElem_map, List.getD_eq_getElem rows 0 h]

/-- Claim C1: for every fully constructed board, `num_attacking` equals the
spec's formula — the sum over every ordered column pair of a same-row hit
plus, independently, a same-diagonal hit, integer-divided by 2 — and
self-pairs contribute 0 through the explicit guard of `compare_queens`. -/
theorem num_attacking_eq_spec :
    (∀ rows : List Nat, num_attacking (rows.map some) = num_attacking_spec rows) ∧
    (∀ i q, compare_queens i q i q = 0) := by
  constructor
  · intro rows
    unfold num_attacking num_attacking_spec
    rw [List.length_map]
    congr 1
    apply congrArg List.sum
    apply List.map_congr_left
    intro i hi
    apply congrArg List.sum
    apply List.map_congr_left
    intro j hj
    rw [slot_map_some rows i (List.mem_range.mp hi),
      slot_map_some rows j (List.mem_range.mp hj)]
    rfl
  · intro i q
    cases q <;> simp [compare_queens]

/-! ### C5 (hill-climbing: termination condition, cost, idempotence) -/

theorem hill_climb_stop (b nb : Board)
    (hmin : min_by num_attacking (possible_moves b) = some nb)
    (hge : num_attacking b ≤ num_attacking nb) :
    hill_climb b = some (b, 0) := by
  rw [hill_climb, hmin]
  simp [Nat.not_lt.mpr hge]

theorem hill_climb_improve (b nb : Board)
    (hmin : min_by num_attacking (possible_moves b) = some nb)
    (hlt : num_attacking nb < num_attacking b) :
    hill_climb b = (hill_climb nb).map (fun p => (p.1, p.2 + 1)) := by
  rw [hill_climb, hmin]
  simp only [dif_pos hlt]
  cases hill_climb nb with
  | none => rfl
  | some p => cases p; rfl

theorem hill_climb_fix (m : Nat) : ∀ b, num_attacking b < m →
    ∀ b' c, hill_climb b = some (b', c) → hill_climb b' = some (b', 0) := by
  induction m with
  | zero => intro b hb; omega
  | succ m ih =>
    intro b hb b' c h
    rcases hmin : min_by num_attacking (possible_moves b) with _ | nb
    · rw [hill_climb, hmin] at h
      exact absurd h (by simp)
    · by_cases hlt : num_attacking nb < num_attacking b
      · rw [hill_climb_improve b nb hmin hlt] at h
        rcases hnb : hill_climb nb with _ | p
        · rw [hnb] at h
          exact absurd h (by simp)
        · rw [hnb] at h
          simp only [Option.map_some', Option.some.injEq, Prod.mk.injEq] at h
          rw [← h.1]
          exact ih nb (by omega) p.1 p.2 (by rw [hnb])
      · have hstop := hill_climb_stop b nb hmin (Nat.not_lt.mp hlt)
        rw [hstop] at h
        simp only [Option.some.injEq, Prod.mk.injEq] at h
        rw [← h.1]
        exact hstop

/-- Claim C5: hill-climbing stops exactly when the minimum-conflict neighbor
is not strictly better than the current board (ties stop, with cost counting
0 further improvements), takes one strict improvement per unit of cost
otherwise, and is idempotent on its own output: re-invoking it on a returned
board returns that same board with cost 0. -/
theorem hill_climb_spec :
    (∀ b nb, min_by num_attacking (possible_moves b) = some nb →
       num_attacking b ≤ num_attacking nb → hill_climb b = some (b, 0)) ∧
    (∀ b nb, min_by num_attacking (possible_moves b) = some nb →
       num_attacking nb < num_attacking b →
       hill_climb b = (hill_climb nb).map (fun p => (p.1, p.2 + 1))) ∧
    (∀ b b' c, hill_climb b = some (b', c) → hill_climb b' = some (b', 0)) :=
  ⟨hill_climb_stop, hill_climb_improve,
   fun b => hill_climb_fix (num_attacking b + 1) b (Nat.lt_succ_self _)⟩

/-- Witness for C5 at concrete boards: "00" is its own local optimum (its
best neighbor "10" ties at one attack), "000" strictly improves to its
minimum-conflict neighbor "020", and re-running on the returned board "00"
costs 0. -/
theorem hill_climb_spec_witness :
    hill_climb [some 0, some 0] = some ([some 0, some 0], 0) ∧
    hill_climb [some 0, some 0, some 0] =
      (hill_climb [some 0, some 2, some 0]).map (fun p => (p.1, p.2 + 1)) ∧
    hill_climb [some 0, some 0] = some ([some 0, some 0], 0) :=
  ⟨hill_climb_spec.1 [some 0, some 0] [some 1, some 0] (by rfl) (by decide),
   hill_climb_spec.2.1 [some 0, some 0, some 0] [some 0, some 2, some 0]
     (by rfl) (by decide),
   hill_climb_spec.2.2 [some 0, some 0] [some 0, some 0] 0
     (hill_climb_spec.1 [some 0, some 0] [some 1, some 0] (by rfl) (by decide))⟩

/-! ### C7 (tournament selection: invalid-proportion error) -/

/-- Python's truncating `int(...)` and mathematical floor bracket the
tournament bound identically: where they differ the value is nonpositive and
already fails `1 < size`. -/
theorem py_int_floor_bracket (q : ℚ) (L : Int) :
    (1 < py_int q ∧ py_int q < L) ↔ (1 < ⌊q⌋ ∧ ⌊q⌋ < L) := by
  rcases le_or_lt 0 q with hq | hq
  · have heq : py_int q = ⌊q⌋ := by
      rw [py_int, Rat.floor_def]
      exact Int.tdiv_eq_ediv (Rat.num_nonneg.mpr hq) (by positivity)
    rw [heq]
  · have h1 : py_int q ≤ 0 := by
      rw [py_int]
      have hnum : q.num < 0 := Rat.num_neg.mpr hq
      have : q.num.tdiv q.den = -((-q.num).tdiv q.den) := by
        rw [Int.neg_tdiv, neg_neg]
      rw [this]
      have := Int.tdiv_nonneg (by omega : (0 : Int) ≤ -q.num) (by positivity : (0 : Int) ≤ (q.den : Int))
      omega
    have h2 : ⌊q⌋ ≤ 0 := Int.floor_nonpos hq.le
    constructor <;> rintro ⟨ha, _⟩ <;> omega

/-- Claim C7: `tournament_selection` raises `InvalidTournamentProportion`
exactly when the tournament size `floor(population_size * proportion)` is not
strictly between 1 and the population size; in particular proportions 0 and
1.0 always raise on a nonempty population (they raise on an empty one too). -/
theorem tournament_selection_error_iff :
    (∀ rand pop p, is_error (tournament_selection rand pop p) = true ↔
       ¬(1 < ⌊(pop.length : ℚ) * p⌋ ∧ ⌊(pop.length : ℚ) * p⌋ < (pop.length : Int))) ∧
    (∀ rand pop, pop ≠ [] →
       is_error (tournament_selection rand pop 0) = true ∧
       is_error (tournament_selection rand pop 1) = true) := by
  have part1 : ∀ rand pop p, is_error (tournament_selection rand pop p) = true ↔
      ¬(1 < ⌊(pop.length : ℚ) * p⌋ ∧ ⌊(pop.length : ℚ) * p⌋ < (pop.length : Int)) := by
    intro rand pop p
    rw [tournament_selection]
    by_cases h : 1 < py_int ((pop.length : ℚ) * p) ∧
        py_int ((pop.length : ℚ) * p) < (pop.length : Int)
    · rw [if_neg (not_not_intro h)]
      simp only [is_error, Bool.false_eq_true, false_iff, not_not]
      exact (py_int_floor_bracket _ _).mp h
    · rw [if_pos h]
      simp only [is_error, true_iff]
      exact fun hf => h ((py_int_floor_bracket _ _).mpr hf)
  refine ⟨part1, fun rand pop _ => ⟨?_, ?_⟩⟩
  · rw [part1]
    intro hf
    have : ⌊(pop.length : ℚ) * 0⌋ = 0 := by simp
    omega
  · rw [part1]
    intro hf
    have : ⌊(pop.length : ℚ) * 1⌋ = (pop.length : Int) := by
      rw [mul_one, Int.floor_natCast]
    omega

/-- Witness for C7: on the three-board population with proportions 0, 1 and
1/2 (size `int(3 * 0.5) = 1`), the tournament raises; with proportion 2/3
(size 2) it does not. -/
theorem tournament_selection_error_witness :
    (is_error (tournament_selection (fun _ => 0) [[some 0], [some 0], [some 0]] 0) = true ∧
     is_error (tournament_selection (fun _ => 0) [[some 0], [some 0], [some 0]] 1) = true) ∧
    (is_error (tournament_selection (fun _ => 0) [[some 0], [some 0], [some 0]] (2/3)) = true ↔
       ¬(1 < ⌊(([[some 0], [some 0], [some 0]] : List Board).length : ℚ) * (2/3)⌋ ∧
         ⌊(([[some 0], [some 0], [some 0]] : List Board).length : ℚ) * (2/3)⌋ <
           (([[some 0], [some 0], [some 0]] : List Board).length : Int))) :=
  ⟨tournament_selection_error_iff.2 (fun _ => 0) [[some 0], [some 0], [some 0]] (by simp),
   tournament_selection_error_iff.1 (fun _ => 0) [[some 0], [some 0], [some 0]] (2/3)⟩

/-! ### C9 (conflicting queens: nonempty under attack, members attack) -/

theorem compare_queens_comm (i j : Nat) (q1 q2 : Option Nat) :
    compare_queens i q1 j q2 = compare_queens j q2 i q1 := by
  cases q1 with
  | none => cases q2 <;> rfl
  | some r1 =>
    cases q2 with
    | none => rfl
    | some r2 =>
      simp only [compare_queens]
      by_cases hij : i = j
      · simp [hij, Ne.symm]
      · have hji : ¬ j = i := fun hh => hij hh.symm
        simp only [hij, hji, if_false]
        congr 1
        · exact if_congr ⟨Eq.symm, Eq.symm⟩ rfl rfl
        · have a1 : ((i : Int) - j).natAbs = ((j : Int) - i).natAbs := by
            rw [← Int.natAbs_neg, neg_sub]
          have a2 : ((r1 : Int) - r2).natAbs = ((r2 : Int) - r1).natAbs := by
            rw [← Int.natAbs_neg, neg_sub]
          exact if_congr (by rw [a1, a2]) rfl rfl

theorem compare_queens_some (i j : Nat) (q1 q2 : Option Nat)
    (h : compare_queens i q1 j q2 ≠ 0) : ∃ r1 r2, q1 = some r1 ∧ q2 = some r2 := by
  cases q1 with
  | none => exact absurd rfl h
  | some r1 =>
    cases q2 with
    | none => exact absurd rfl h
    | some r2 => exact ⟨r1, r2, rfl, rfl⟩

theorem mem_cq_insert (acc : List (Nat × Nat)) (y x : Nat × Nat)
    (h : x ∈ cq_insert acc y) : x ∈ acc ∨ x = y := by
  rw [cq_insert] at h
  split at h
  · exact Or.inl h
  · rcases List.mem_append.mp h with h | h
    · exact Or.inl h
    · exact Or.inr (List.mem_singleton.mp h)

theorem cq_insert_ne_nil (acc : List (Nat × Nat)) (y : Nat × Nat) :
    cq_insert acc y ≠ [] := by
  rw [cq_insert]
  split
  · exact List.ne_nil_of_mem (by assumption)
  · simp

theorem cq_step_keep_ne_nil (b : Board) (acc : List (Nat × Nat)) (i j : Nat)
    (h : acc ≠ []) : cq_step b acc i j ≠ [] := by
  rw [cq_step]
  split
  · split
    · exact h
    · split
      · exact cq_insert_ne_nil _ _
      · exact h
  · exact h

theorem cq_step_make_ne_nil (b : Board) (acc : List (Nat × Nat)) (i j : Nat)
    (h : compare_queens i (slot b i) j (slot b j) ≠ 0) : cq_step b acc i j ≠ [] := by
  obtain ⟨r1, r2, h1, h2⟩ := compare_queens_some _ _ _ _ h
  rw [h1, h2] at h
  rw [cq_step, h1, h2]
  show (if (i, r1) ∈ acc ∧ (j, r2) ∈ acc then acc
    else if compare_queens i (some r1) j (some r2) ≠ 0 then
      cq_insert (cq_insert acc (i, r1)) (j, r2)
    else acc) ≠ []
  by_cases hmem : (i, r1) ∈ acc ∧ (j, r2) ∈ acc
  · rw [if_pos hmem]
    exact List.ne_nil_of_mem hmem.1
  · rw [if_neg hmem, if_pos h]
    exact cq_insert_ne_nil _ _

theorem foldl_preserve {α β : Type} (P : β → Prop) (f : β → α → β) (l : List α) :
    ∀ init, (∀ acc x, x ∈ l → P acc → P (f acc x)) → P init → P (l.foldl f init) := by
  induction l with
  | nil => intro init _ hinit; exact hinit
  | cons y t ih =>
    intro init hstep hinit
    exact ih (f init y)
      (fun acc x hx => hstep acc x (List.mem_cons_of_mem y hx))
      (hstep init y (List.mem_cons_self y t) hinit)

theorem foldl_attain_ne_nil {α : Type} (f : List (Nat × Nat) → α → List (Nat × Nat))
    (l : List α) (x : α) :
    ∀ init, x ∈ l → (∀ acc, f acc x ≠ []) →
      (∀ acc y, y ∈ l → acc ≠ [] → f acc y ≠ []) → l.foldl f init ≠ [] := by
  induction l with
  | nil => intro init hx; exact absurd hx (List.not_mem_nil x)
  | cons y t ih =>
    intro init hx hmake hkeep
    rcases List.mem_cons.mp hx with rfl | hx
    · exact foldl_preserve (fun acc : List (Nat × Nat) => acc ≠ []) f t (f init x)
        (fun acc z hz => hkeep acc z (List.mem_cons_of_mem x hz))
        (hmake init)
    · exact ih (f init y) hx hmake
        (fun acc z hz => hkeep acc z (List.mem_cons_of_mem y hz))

theorem cq_step_sound (b : Board) (i j : Nat) (hi : i < b.length) (hj : j < b.length)
    (acc : List (Nat × Nat))
    (hacc : ∀ p ∈ acc, slot b p.1 = some p.2 ∧
      ∃ k r2, k < b.length ∧ slot b k = some r2 ∧
        compare_queens p.1 (some p.2) k (some r2) ≠ 0) :
    ∀ p ∈ cq_step b acc i j, slot b p.1 = some p.2 ∧
      ∃ k r2, k < b.length ∧ slot b k = some r2 ∧
        compare_queens p.1 (some p.2) k (some r2) ≠ 0 := by
  intro p hp
  rw [cq_step] at hp
  rcases hsi : slot b i with _ | r1 <;> rw [hsi] at hp
  · exact hacc p hp
  · rcases hsj : slot b j with _ | r2 <;> rw [hsj] at hp
    · exact hacc p hp
    · simp only [] at hp
      split at hp
      · exact hacc p hp
      · split at hp
        · rename_i hcmp
          rcases mem_cq_insert _ _ _ hp with hp' | rfl
          · rcases mem_cq_insert _ _ _ hp' with hp'' | rfl
            · exact hacc p hp''
            · exact ⟨hsi, j, r2, hj, hsj, hcmp⟩
          · refine ⟨hsj, i, r1, hi, hsi, ?_⟩
            rw [compare_queens_comm]
            exact hcmp
        · exact hacc p hp

/-- Claim C9: on any board with at least one attack, `conflicting_queens` is
nonempty, every recorded `(column, row)` pair is an actual queen of the board
participating in at least one attack, and hence the `random.choice` over
`list(conflicting_queens)` inside the min-conflicts loop body always has an
element to draw. -/
theorem conflicting_queens_sound (b : Board) (h : 0 < num_attacking b) :
    conflicting_queens b ≠ [] ∧
    (∀ p ∈ conflicting_queens b, slot b p.1 = some p.2 ∧
      ∃ k r2, k < b.length ∧ slot b k = some r2 ∧
        compare_queens p.1 (some p.2) k (some r2) ≠ 0) ∧
    (∀ r, ((conflicting_queens b).get?
        (r % (conflicting_queens b).length)).isSome = true) := by
  have hS : (((List.range b.length).map (fun i =>
      ((List.range b.length).map (fun j =>
        compare_queens i (slot b i) j (slot b j))).sum)).sum) ≠ 0 := by
    intro hzero
    rw [num_attacking, hzero] at h
    omega
  have houter : ∃ i ∈ List.range b.length,
      ((List.range b.length).map (fun j =>
        compare_queens i (slot b i) j (slot b j))).sum ≠ 0 := by
    by_contra hc
    push_neg at hc
    apply hS
    rw [List.sum_eq_zero_iff]
    intro x hx
    rcases List.mem_map.mp hx with ⟨i, hi, rfl⟩
    exact hc i hi
  obtain ⟨i0, hi0, hinner⟩ := houter
  have hwit : ∃ j ∈ List.range b.length,
      compare_queens i0 (slot b i0) j (slot b j) ≠ 0 := by
    by_contra hc
    push_neg at hc
    apply hinner
    rw [List.sum_eq_zero_iff]
    intro x hx
    rcases List.mem_map.mp hx with ⟨j, hj, rfl⟩
    exact hc j hj
  obtain ⟨j0, hj0, hcmp⟩ := hwit
  have hne : conflicting_queens b ≠ [] := by
    rw [conflicting_queens]
    apply foldl_attain_ne_nil _ _ i0 _ hi0
    · intro acc
      apply foldl_attain_ne_nil _ _ j0 _ hj0
      · intro acc2
        exact cq_step_make_ne_nil b acc2 i0 j0 hcmp
      · intro acc2 j _ hacc2
        exact cq_step_keep_ne_nil b acc2 i0 j hacc2
    · intro acc i _ hacc
      apply foldl_preserve (fun a : List (Nat × Nat) => a ≠ []) _ _ acc
      · intro acc2 j _ hacc2
        exact cq_step_keep_ne_nil b acc2 i j hacc2
      · exact hacc
  have hsound : ∀ p ∈ conflicting_queens b, slot b p.1 = some p.2 ∧
      ∃ k r2, k < b.length ∧ slot b k = some r2 ∧
        compare_queens p.1 (some p.2) k (some r2) ≠ 0 := by
    rw [conflicting_queens]
    apply foldl_preserve
      (fun acc : List (Nat × Nat) => ∀ p ∈ acc, slot b p.1 = some p.2 ∧
        ∃ k r2, k < b.length ∧ slot b k = some r2 ∧
          compare_queens p.1 (some p.2) k (some r2) ≠ 0)
    · intro acc i hi hacc
      apply foldl_preserve
        (fun acc2 : List (Nat × Nat) => ∀ p ∈ acc2, slot b p.1 = some p.2 ∧
          ∃ k r2, k < b.length ∧ slot b k = some r2 ∧
            compare_queens p.1 (some p.2) k (some r2) ≠ 0)
      · intro acc2 j hj hacc2
        exact cq_step_sound b i j (List.mem_range.mp hi) (List.mem_range.mp hj) acc2 hacc2
      · exact hacc
    · intro p hp
      exact absurd hp (List.not_mem_nil p)
  refine ⟨hne, hsound, ?_⟩
  intro r
  have hlen : 0 < (conflicting_queens b).length := List.length_pos.mpr hne
  have hlt : r % (conflicting_queens b).length < (conflicting_queens b).length :=
    Nat.mod_lt r hlen
  rw [List.get?_eq_getElem?, List.getElem?_eq_getElem hlt]
  rfl

/-- Witness for C9 at the two-queen same-row board "00" (one attack): both
queens are recorded as conflicting. -/
theorem conflicting_queens_sound_witness :
    0 < num_attacking [some 0, some 0] ∧ conflicting_queens [some 0, some 0] ≠ [] :=
  ⟨by decide, (conflicting_queens_sound [some 0, some 0] (by decide)).1⟩

/-! ### C4 (identifier round trip)

Round-tripping a board through its identifier is the identity — hence
preserves `num_attacking` and the identifier — whenever every row is a
single digit.  A board holding a row `≥ 10` renders as several characters,
so its identifier reparses as a *wider* board with a different attack count:
the claim's unrestricted "every Board" fails on `wide_board`. -/

theorem repr_digit_char (r : Nat) (h : r < 10) :
    (Nat.repr r).data = [Char.ofNat (r + 48)] := by
  interval_cases r <;> rfl

theorem flatMap_slot_repr (l : Board) (h : ∀ r, some r ∈ l → r < 10) :
    l.flatMap slot_repr = l.map slot_char := by
  induction l with
  | nil => rfl
  | cons s t ih =>
    rw [List.flatMap_cons, List.map_cons,
      ih (fun r hr => h r (List.mem_cons_of_mem s hr))]
    cases s with
    | none => rfl
    | some r =>
      rw [show slot_repr (some r) = (Nat.repr r).data from rfl,
        repr_digit_char r (h r (List.mem_cons_self _ _))]
      rfl

theorem char_to_slot_digit (n d : Nat) (hd : d < 10) (hn : d < n) :
    char_to_slot n (Char.ofNat (d + 48)) = Except.ok (some d) := by
  have htn : (Char.ofNat (d + 48)).toNat - '0'.toNat = d := by
    interval_cases d <;> decide
  have hdash : ¬ Char.ofNat (d + 48) = '-' := by
    interval_cases d <;> decide
  have hdig : (Char.ofNat (d + 48)).isDigit = true := by
    interval_cases d <;> decide
  simp only [char_to_slot]
  rw [if_neg hdash, if_pos hdig, htn, if_neg (by omega)]

theorem char_to_slot_slot_char (n : Nat) (s : Option Nat)
    (h : ∀ r, s = some r → r < 10 ∧ r < n) :
    char_to_slot n (slot_char s) = Except.ok s := by
  cases s with
  | none => rfl
  | some r =>
    obtain ⟨h10, hn⟩ := h r rfl
    exact char_to_slot_digit n r h10 hn

theorem mapM_char_to_slot (n : Nat) (l : Board)
    (h : ∀ r, some r ∈ l → r < 10 ∧ r < n) :
    (l.map slot_char).mapM (char_to_slot n) = Except.ok l := by
  induction l with
  | nil => rfl
  | cons s t ih =>
    rw [List.map_cons, List.mapM_cons,
      char_to_slot_slot_char n s (fun r hr => h r (hr ▸ List.mem_cons_self s t)),
      ih (fun r hr => h r (List.mem_cons_of_mem s hr))]
    rfl

theorem from_str_repr_board (b : Board)
    (h : ∀ r, some r ∈ b → r < 10 ∧ r < b.length) :
    from_str (repr_board b) = Except.ok b := by
  have hdata : (repr_board b).data = b.map slot_char :=
    flatMap_slot_repr b (fun r hr => (h r hr).1)
  rw [from_str, hdata, List.length_map]
  exact mapM_char_to_slot b.length b h

/-- Claim C4 counterexample: parsing `wide_board`'s identifier
("10" then ten "0"s, 12 characters) yields a 12-column board with 56
attacking pairs, while `wide_board` itself has 46 — the round trip does not
preserve `num_attacking` for every board. -/
theorem round_trip_wide_board :
    num_attacking wide_board = 46 ∧
    (from_str (repr_board wide_board)).map num_attacking = Except.ok 56 ∧
    (from_str (repr_board wide_board)).map num_attacking ≠
      Except.ok (num_attacking wide_board) := by
  have h46 : num_attacking wide_board = 46 := by rfl
  have h56 : (from_str (repr_board wide_board)).map num_attacking = Except.ok 56 := by rfl
  refine ⟨h46, h56, ?_⟩
  rw [h56, h46]
  simp

/-- Claim C4 (amended): for every board whose queens all sit on single-digit
rows (`row < 10`, and `row < n` as Python's `add_queen` guarantees), parsing
the board's identifier returns the board itself, hence preserves
`num_attacking` and yields the identical identifier. -/
theorem round_trip_single_digit (b : Board)
    (h : ∀ r, some r ∈ b → r < 10 ∧ r < b.length) :
    from_str (repr_board b) = Except.ok b ∧
    (from_str (repr_board b)).map num_attacking = Except.ok (num_attacking b) ∧
    (from_str (repr_board b)).map repr_board = Except.ok (repr_board b) := by
  have hid := from_str_repr_board b h
  exact ⟨hid, by rw [hid]; rfl, by rw [hid]; rfl⟩

/-- Witness for C4 at the board "10": the round trip is the identity. -/
theorem round_trip_single_digit_witness :
    from_str (repr_board [some 1, some 0]) = Except.ok [some 1, some 0] ∧
    (from_str (repr_board [some 1, some 0])).map num_attacking =
      Except.ok (num_attacking [some 1, some 0]) ∧
    (from_str (repr_board [some 1, some 0])).map repr_board =
      Except.ok (repr_board [some 1, some 0]) :=
  round_trip_single_digit [some 1, some 0]
    (by
      intro r hr
      simp only [List.mem_cons, List.not_mem_nil, or_false, Option.some.injEq] at hr
      rcases hr with rfl | rfl <;> norm_num)
